import Mathlib

/-!
Shallow embedding of the configuration reconciliation logic of
`scripts/sync_litellm_models.py` (functions `merge_configs` and
`update_provider_config`).

Python dictionaries are modelled as association lists with Python's
semantics: lookup returns the first binding, updating an existing key
keeps its position, and inserting a fresh key appends at the end (Python
dicts preserve insertion order and have unique keys; well-formed inputs
are association lists whose keys are pairwise distinct).

YAML/JSON values are modelled by the inductive type `Val`.  Code paths
on which the Python program raises an exception (for example calling
`.items()` on a value that is not a mapping) are modelled by
`Except.error`.
-/

namespace SyncModels

/-- A YAML/JSON-like value: the data manipulated by the sync script. -/
inductive Val where
  | null : Val
  | str : String → Val
  | int : Int → Val
  | list : List Val → Val
  | map : List (String × Val) → Val

/-- Python `d.get(key)` / `d[key]`: first binding wins. -/
def dictGet : List (String × Val) → String → Option Val
  | [], _ => none
  | (k, v) :: rest, key => if k = key then some v else dictGet rest key

/-- Python `d[key] = val`: update the binding in place if the key is
present, append a fresh binding otherwise. -/
def dictSet : List (String × Val) → String → Val → List (String × Val)
  | [], key, val => [(key, val)]
  | (k, v) :: rest, key, val =>
    if k = key then (k, val) :: rest else (k, v) :: dictSet rest key val

/-- Keys of an association list are pairwise distinct (Python dicts
always satisfy this). -/
def keysNodup (d : List (String × Val)) : Prop :=
  (d.map Prod.fst).Nodup

instance (d : List (String × Val)) : Decidable (keysNodup d) := by
  unfold keysNodup; infer_instance

/-- Extract the strings of a list of values; fails unless every element
is a string. -/
def strListOf : List Val → Option (List String)
  | [] => some []
  | .str s :: rest => (strListOf rest).map (s :: ·)
  | _ :: _ => none

/-- Interpret a value as a list of strings (the shape of every
capability list produced or consumed by the script). -/
def asStrList : Val → Option (List String)
  | .list xs => strListOf xs
  | _ => none

/-- Lexicographic comparison of character lists by code point, the
order Python uses to compare strings.  (A hand-rolled Boolean version is
used because it must evaluate by kernel reduction.) -/
def charListLt : List Char → List Char → Bool
  | [], [] => false
  | [], _ :: _ => true
  | _ :: _, [] => false
  | x :: xs, y :: ys =>
    if x.toNat < y.toNat then true
    else if y.toNat < x.toNat then false
    else charListLt xs ys

/-- Python's `<` on strings: lexicographic by code point. -/
def strLt (a b : String) : Bool := charListLt a.data b.data

/-- Insert a string into a strictly sorted list, keeping it strictly
sorted (no duplicates). -/
def sortedInsert (x : String) : List String → List String
  | [] => [x]
  | y :: ys => if strLt x y then x :: y :: ys
    else if x = y then y :: ys
    else y :: sortedInsert x ys

/-- `sorted(list(set(xs)))` for a list of strings: the strictly sorted,
duplicate-free enumeration of the elements of `xs`. -/
def setSorted (xs : List String) : List String :=
  xs.foldr sortedInsert []

/-- Python `sorted(list(set(existing_caps) | set(new_caps)))` from
`merge_configs`; crashes (error) unless both operands are lists of
strings, which is the only shape the script ever produces. -/
def mergeCaps (existingCaps newCaps : Val) : Except String Val :=
  match asStrList existingCaps, asStrList newCaps with
  | some e, some n => .ok (.list ((setSorted (e ++ n)).map .str))
  | _, _ => .error "capabilities are not lists of strings"

/-- The inner loop of `merge_configs` for one model present in both the
existing document and the new records: iterate over the new record's
items; `capabilities` is merged as a set union, every other key is
overwritten with the new value.  A non-mapping existing model with a
nonempty new record raises in Python (`existing_model[key] = value` on a
scalar), hence the error case. -/
def mergeModel : Val → List (String × Val) → Except String Val
  | em, [] => .ok em
  | .map emKvs, (key, value) :: rest =>
    if key = "capabilities" then
      match mergeCaps ((dictGet emKvs "capabilities").getD (.list [])) value with
      | .ok merged => mergeModel (.map (dictSet emKvs "capabilities" merged)) rest
      | .error e => .error e
    else mergeModel (.map (dictSet emKvs key value)) rest
  | _, _ :: _ => .error "existing model is not a mapping"

/-- The outer loop of `merge_configs` over `new_models.items()`: a model
already present is merged via `mergeModel` (its new record must be a
mapping, else Python's `new_data.items()` raises); an unknown model is
inserted verbatim. -/
def mergeModels (ms : List (String × Val)) :
    List (String × Val) → Except String (List (String × Val))
  | [] => .ok ms
  | (modelId, newData) :: rest =>
    match dictGet ms modelId with
    | some em =>
      match newData with
      | .map kvs =>
        match mergeModel em kvs with
        | .ok merged => mergeModels (dictSet ms modelId merged) rest
        | .error e => .error e
      | _ => .error "new record is not a mapping"
    | none => mergeModels (dictSet ms modelId newData) rest

/-- `merge_configs(existing, new_models)`: ensure a `models` key
(defaulting to an empty map), then fold the new records into it.  If the
existing `models` value is not a mapping, any nonempty batch raises in
Python. -/
def merge_configs (existing : List (String × Val))
    (new_models : List (String × Val)) : Except String (List (String × Val)) :=
  match (dictGet existing "models").getD (.map []) with
  | .map ms =>
    match mergeModels ms new_models with
    | .ok ms2 => .ok (dictSet existing "models" (.map ms2))
    | .error e => .error e
  | other =>
    match new_models with
    | [] => .ok (dictSet existing "models" other)
    | _ :: _ => .error "existing models entry is not a mapping"

/-- The pure core of `update_provider_config(provider, models)`: merge
the new records into the loaded document, then set the `provider` key
only when it is absent (`if "provider" not in updated`). -/
def update_provider_config (provider : String) (models : List (String × Val))
    (existing : List (String × Val)) : Except String (List (String × Val)) :=
  match merge_configs existing models with
  | .ok updated =>
    .ok (if (dictGet updated "provider").isSome then updated
         else dictSet updated "provider" (.str provider))
  | .error e => .error e

/-- The reconciliation operation of the spec,
`reconcile(existing, new_records, provider)`, realised by the script as
`update_provider_config` applied to the loaded document. -/
def reconcile (existing : List (String × Val))
    (new_records : List (String × Val)) (provider : String) :
    Except String (List (String × Val)) :=
  update_provider_config provider new_records existing

/-- Does a value have mapping shape? -/
def isMapVal : Val → Bool
  | .map _ => true
  | _ => false

/-- Proof device: the action of one iteration of the `merge_configs`
loop on the models map. -/
def stepRecord (ms : List (String × Val)) (modelId : String) (newData : Val) :
    Except String (List (String × Val)) :=
  match dictGet ms modelId with
  | some em =>
    match newData with
    | .map kvs =>
      match mergeModel em kvs with
      | .ok merged => .ok (dictSet ms modelId merged)
      | .error e => .error e
    | _ => .error "new record is not a mapping"
  | none => .ok (dictSet ms modelId newData)

/-- Observation used to separate documents: the capability list stored
for model `m` in a reconciliation result. -/
def capsOfResult (r : Except String (List (String × Val))) (m : String) :
    Option (List String) :=
  match r with
  | .ok d =>
    match dictGet d "models" with
    | some (.map ms) =>
      match dictGet ms m with
      | some (.map em) =>
        match dictGet em "capabilities" with
        | some c => asStrList c
        | none => none
      | _ => none
    | _ => none
  | .error _ => none

/-! ### The string order

`strLt` agrees with the lexicographic order on `String`, so sortedness
statements below can use the standard `<`. -/

theorem charListLt_iff : ∀ (l₁ l₂ : List Char),
    charListLt l₁ l₂ = true ↔ List.Lex (· < ·) l₁ l₂
  | [], [] => by
    simp only [charListLt]
    exact iff_of_false (by simp) (fun h => by cases h)
  | [], _ :: _ => ⟨fun _ => List.Lex.nil, fun _ => rfl⟩
  | _ :: _, [] => by
    simp only [charListLt]
    exact iff_of_false (by simp) (fun h => by cases h)
  | x :: xs, y :: ys => by
    simp only [charListLt]
    by_cases hxy : x.toNat < y.toNat
    · simp only [hxy, if_true]
      exact iff_of_true trivial (List.Lex.rel hxy)
    · by_cases hyx : y.toNat < x.toNat
      · simp only [hxy, hyx, if_true, if_false]
        refine iff_of_false (by simp) (fun h => ?_)
        cases h with
        | rel h => exact hxy h
        | cons h => exact absurd hyx (lt_irrefl _)
      · have hx : x = y := by
          have : x.toNat = y.toNat :=
            Nat.le_antisymm (Nat.le_of_not_lt hyx) (Nat.le_of_not_lt hxy)
          exact Char.eq_of_val_eq (by
            apply UInt32.eq_of_val_eq
            exact Fin.ext this)
        subst hx
        simp only [hxy, if_neg, if_false]
        rw [charListLt_iff xs ys]
        exact (List.Lex.cons_iff (r := fun a b : Char => a < b)).symm

theorem strLt_iff (a b : String) : strLt a b = true ↔ a < b := by
  rw [String.lt_iff_toList_lt]
  exact charListLt_iff a.data b.data

theorem mem_sortedInsert (x a : String) :
    ∀ l, a ∈ sortedInsert x l ↔ a = x ∨ a ∈ l
  | [] => by simp [sortedInsert]
  | y :: ys => by
    simp only [sortedInsert]
    by_cases h1 : strLt x y = true
    · rw [if_pos h1]
      simp [List.mem_cons]
    · rw [if_neg h1]
      by_cases h2 : x = y
      · rw [if_pos h2]
        subst h2
        simp only [List.mem_cons]
        tauto
      · rw [if_neg h2]
        simp only [List.mem_cons, mem_sortedInsert x a ys]
        tauto

theorem sorted_sortedInsert (x : String) :
    ∀ l, List.Sorted (· < ·) l → List.Sorted (· < ·) (sortedInsert x l)
  | [], _ => by simp [sortedInsert]
  | y :: ys, h => by
    rw [List.sorted_cons] at h
    simp only [sortedInsert]
    by_cases h1 : strLt x y = true
    · rw [if_pos h1]
      rw [List.sorted_cons]
      refine ⟨?_, by rw [List.sorted_cons]; exact h⟩
      intro b hb
      rcases List.mem_cons.mp hb with rfl | hb
      · exact (strLt_iff x b).mp h1
      · exact lt_trans ((strLt_iff x y).mp h1) (h.1 b hb)
    · rw [if_neg h1]
      by_cases h2 : x = y
      · rw [if_pos h2, List.sorted_cons]
        exact h
      · have hyx : y < x := by
          rcases lt_trichotomy x y with hlt | heq | hgt
          · exact absurd ((strLt_iff x y).mpr hlt) h1
          · exact absurd heq h2
          · exact hgt
        rw [if_neg h2, List.sorted_cons]
        refine ⟨?_, sorted_sortedInsert x ys h.2⟩
        intro b hb
        rcases (mem_sortedInsert x b ys).mp hb with rfl | hb
        · exact hyx
        · exact h.1 b hb

theorem sorted_setSorted : ∀ xs, List.Sorted (· < ·) (setSorted xs)
  | [] => by simp [setSorted]
  | x :: xs => sorted_sortedInsert x _ (sorted_setSorted xs)

theorem mem_setSorted : ∀ (xs : List String) (a : String),
    a ∈ setSorted xs ↔ a ∈ xs
  | [], a => by simp [setSorted]
  | x :: xs, a => by
    show a ∈ sortedInsert x (setSorted xs) ↔ _
    rw [mem_sortedInsert, mem_setSorted xs a, List.mem_cons]

/-- Two strictly sorted lists with the same members are equal. -/
theorem sorted_eq_of_mem_iff {l₁ l₂ : List String}
    (h₁ : List.Sorted (· < ·) l₁) (h₂ : List.Sorted (· < ·) l₂)
    (h : ∀ a, a ∈ l₁ ↔ a ∈ l₂) : l₁ = l₂ :=
  List.eq_of_perm_of_sorted
    ((List.perm_ext_iff_of_nodup h₁.nodup h₂.nodup).mpr h) h₁ h₂

/-- A strictly sorted list absorbs a second pass over elements it
already contains. -/
theorem setSorted_absorb {u ns : List String}
    (hu : List.Sorted (· < ·) u) (hsub : ∀ a ∈ ns, a ∈ u) :
    setSorted (u ++ ns) = u := by
  refine sorted_eq_of_mem_iff (sorted_setSorted _) hu (fun a => ?_)
  rw [mem_setSorted, List.mem_append]
  exact ⟨fun h => h.elim id (hsub a), Or.inl⟩

/-! ### Dictionary lemmas -/

theorem dictGet_dictSet_self : ∀ (d : List (String × Val)) (k : String) (v : Val),
    dictGet (dictSet d k v) k = some v
  | [], k, v => by simp [dictGet, dictSet]
  | (k', v') :: rest, k, v => by
    simp only [dictSet]
    by_cases h : k' = k
    · rw [if_pos h]
      simp [dictGet, h]
    · rw [if_neg h]
      simp only [dictGet, if_neg h]
      exact dictGet_dictSet_self rest k v

theorem dictGet_dictSet_ne : ∀ (d : List (String × Val)) {k x : String} (v : Val),
    x ≠ k → dictGet (dictSet d k v) x = dictGet d x
  | [], k, x, v, h => by
    simp only [dictSet, dictGet]
    rw [if_neg (show ¬k = x from fun hh => h hh.symm)]
  | (k', v') :: rest, k, x, v, h => by
    simp only [dictSet]
    by_cases hk : k' = k
    · rw [if_pos hk]
      subst hk
      simp only [dictGet]
      rw [if_neg (show ¬k' = x from fun hh => h hh.symm),
        if_neg (show ¬k' = x from fun hh => h hh.symm)]
    · rw [if_neg hk]
      simp only [dictGet]
      by_cases hx : k' = x
      · rw [if_pos hx, if_pos hx]
      · rw [if_neg hx, if_neg hx]
        exact dictGet_dictSet_ne rest v h

theorem dictSet_of_dictGet_eq : ∀ {d : List (String × Val)} {k : String} {v : Val},
    dictGet d k = some v → dictSet d k v = d
  | [], k, v, h => by simp [dictGet] at h
  | (k', v') :: rest, k, v, h => by
    simp only [dictGet] at h
    simp only [dictSet]
    by_cases hk : k' = k
    · rw [if_pos hk]
      rw [if_pos hk] at h
      obtain rfl : v' = v := Option.some.inj h
      rfl
    · rw [if_neg hk]
      rw [if_neg hk] at h
      rw [dictSet_of_dictGet_eq h]

theorem dictSet_of_dictGet_none : ∀ {d : List (String × Val)} {k : String} (v : Val),
    dictGet d k = none → dictSet d k v = d ++ [(k, v)]
  | [], k, v, _ => rfl
  | (k', v') :: rest, k, v, h => by
    simp only [dictGet] at h
    by_cases hk : k' = k
    · rw [if_pos hk] at h
      cases h
    · rw [if_neg hk] at h
      simp only [dictSet, if_neg hk, List.cons_append, List.cons.injEq, true_and]
      exact dictSet_of_dictGet_none v h

theorem isSome_dictGet_dictSet : ∀ (d : List (String × Val)) (k x : String) (v : Val),
    (dictGet (dictSet d k v) x).isSome ↔ x = k ∨ (dictGet d x).isSome
  | d, k, x, v => by
    by_cases h : x = k
    · subst h
      simp [dictGet_dictSet_self]
    · rw [dictGet_dictSet_ne d v h]
      simp [h]

theorem dictGet_isSome_iff_mem : ∀ (d : List (String × Val)) (k : String),
    (dictGet d k).isSome ↔ k ∈ d.map Prod.fst
  | [], k => by simp [dictGet]
  | (k', v') :: rest, k => by
    simp only [dictGet, List.map_cons, List.mem_cons]
    by_cases h : k' = k
    · subst h
      simp
    · rw [if_neg h]
      rw [dictGet_isSome_iff_mem rest k]
      constructor
      · exact Or.inr
      · intro hh
        exact hh.resolve_left (fun hh2 => h hh2.symm)

theorem dictGet_of_mem_nodup : ∀ {d : List (String × Val)}, keysNodup d →
    ∀ {k : String} {v : Val}, (k, v) ∈ d → dictGet d k = some v
  | [], _, k, v, h => by cases h
  | (k', v') :: rest, hd, k, v, h => by
    rw [keysNodup, List.map_cons, List.nodup_cons] at hd
    rcases List.mem_cons.mp h with heq | hmem
    · obtain ⟨rfl, rfl⟩ := Prod.mk.injEq .. ▸ heq
      simp [dictGet]
    · have hk : k' ≠ k := by
        intro hk
        subst hk
        exact hd.1 (List.mem_map.mpr ⟨(k', v), hmem, rfl⟩)
      simp only [dictGet, if_neg hk]
      exact dictGet_of_mem_nodup hd.2 hmem

/-! ### String-list and capability-merge lemmas -/

theorem strListOf_map_str : ∀ ns : List String, strListOf (ns.map .str) = some ns
  | [] => rfl
  | s :: rest => by
    simp only [List.map_cons, strListOf, strListOf_map_str rest, Option.map_some']

theorem strListOf_eq_some : ∀ {xs : List Val} {ns : List String},
    strListOf xs = some ns → xs = ns.map .str
  | [], ns, h => by
    simp only [strListOf, Option.some.injEq] at h
    subst h
    rfl
  | .str s :: rest, ns, h => by
    simp only [strListOf] at h
    cases hr : strListOf rest with
    | none => rw [hr] at h; cases h
    | some ms =>
      rw [hr] at h
      simp only [Option.map_some', Option.some.injEq] at h
      subst h
      simp only [List.map_cons, List.cons.injEq, true_and]
      exact strListOf_eq_some hr
  | .null :: rest, ns, h => by cases h
  | .int _ :: rest, ns, h => by cases h
  | .list _ :: rest, ns, h => by cases h
  | .map _ :: rest, ns, h => by cases h

theorem asStrList_eq_some {v : Val} {ns : List String}
    (h : asStrList v = some ns) : v = .list (ns.map .str) := by
  cases v with
  | list xs => exact congrArg Val.list (strListOf_eq_some h)
  | null => cases h
  | str _ => cases h
  | int _ => cases h
  | map _ => cases h

theorem asStrList_map_str (ns : List String) :
    asStrList (.list (ns.map .str)) = some ns :=
  strListOf_map_str ns

theorem mergeCaps_strs (cs ns : List String) :
    mergeCaps (.list (cs.map .str)) (.list (ns.map .str)) =
      .ok (.list ((setSorted (cs ++ ns)).map .str)) := by
  simp [mergeCaps, asStrList_map_str]

theorem mergeCaps_ok {a b : Val} {r : Val} (h : mergeCaps a b = .ok r) :
    ∃ cs ns, asStrList a = some cs ∧ asStrList b = some ns ∧
      r = .list ((setSorted (cs ++ ns)).map .str) := by
  unfold mergeCaps at h
  cases ha : asStrList a with
  | none => rw [ha] at h; cases h
  | some cs =>
    cases hb : asStrList b with
    | none => rw [ha, hb] at h; cases h
    | some ns =>
      rw [ha, hb] at h
      simp only [Except.ok.injEq] at h
      exact ⟨cs, ns, rfl, rfl, h.symm⟩

/-! ### Lemmas about merging one model record (`mergeModel`) -/

theorem mergeModel_nil : ∀ em : Val, mergeModel em [] = .ok em
  | .null => rfl
  | .str _ => rfl
  | .int _ => rfl
  | .list _ => rfl
  | .map _ => rfl

theorem mergeModel_cons (e : List (String × Val)) (k : String) (v : Val)
    (rest : List (String × Val)) :
    mergeModel (.map e) ((k, v) :: rest) =
      if k = "capabilities" then
        match mergeCaps ((dictGet e "capabilities").getD (.list [])) v with
        | .ok merged => mergeModel (.map (dictSet e "capabilities" merged)) rest
        | .error err => .error err
      else mergeModel (.map (dictSet e k v)) rest := rfl

/-- A successful merge starting from a mapping yields a mapping. -/
theorem mergeModel_map_ok : ∀ {l : List (String × Val)}
    {e : List (String × Val)} {r : Val},
    mergeModel (.map e) l = .ok r → ∃ e2, r = .map e2
  | [], e, r, h => ⟨e, (Except.ok.inj h).symm⟩
  | (k, v) :: rest, e, r, h => by
    rw [mergeModel_cons] at h
    by_cases hk : k = "capabilities"
    · rw [if_pos hk] at h
      cases hc : mergeCaps ((dictGet e "capabilities").getD (.list [])) v with
      | ok merged =>
        rw [hc] at h
        exact mergeModel_map_ok h
      | error err => rw [hc] at h; cases h
    · rw [if_neg hk] at h
      exact mergeModel_map_ok h

/-- Keys absent from the new record are untouched by the merge. -/
theorem mergeModel_frame : ∀ {l : List (String × Val)}
    {e e2 : List (String × Val)}, mergeModel (.map e) l = .ok (.map e2) →
    ∀ {k : String}, k ∉ l.map Prod.fst → dictGet e2 k = dictGet e k
  | [], e, e2, h, k, _ => by
    cases congrArg (fun v => match v with | Val.map m => m | _ => []) (Except.ok.inj h)
    rfl
  | (k', v) :: rest, e, e2, h, k, hk => by
    have hk1 : k ≠ k' := fun hh => hk (by simp [hh])
    have hk2 : k ∉ rest.map Prod.fst := fun hh => hk (by simp [hh])
    rw [mergeModel_cons] at h
    by_cases hc : k' = "capabilities"
    · rw [if_pos hc] at h
      cases hm : mergeCaps ((dictGet e "capabilities").getD (.list [])) v with
      | ok merged =>
        rw [hm] at h
        rw [mergeModel_frame h hk2, dictGet_dictSet_ne _ _ (hc ▸ hk1)]
      | error err => rw [hm] at h; cases h
    · rw [if_neg hc] at h
      rw [mergeModel_frame h hk2, dictGet_dictSet_ne _ _ hk1]

/-- The key set of the merged record is the union of the existing
record's keys and the new record's keys. -/
theorem mergeModel_hasKey : ∀ {l : List (String × Val)}
    {e e2 : List (String × Val)}, mergeModel (.map e) l = .ok (.map e2) →
    ∀ k : String, (dictGet e2 k).isSome ↔
      (dictGet e k).isSome ∨ k ∈ l.map Prod.fst
  | [], e, e2, h, k => by
    cases congrArg (fun v => match v with | Val.map m => m | _ => []) (Except.ok.inj h)
    simp
  | (k', v) :: rest, e, e2, h, k => by
    rw [mergeModel_cons] at h
    by_cases hc : k' = "capabilities"
    · rw [if_pos hc] at h
      cases hm : mergeCaps ((dictGet e "capabilities").getD (.list [])) v with
      | ok merged =>
        rw [hm] at h
        rw [mergeModel_hasKey h k, isSome_dictGet_dictSet]
        subst hc
        simp only [List.map_cons, List.mem_cons]
        tauto
      | error err => rw [hm] at h; cases h
    · rw [if_neg hc] at h
      rw [mergeModel_hasKey h k, isSome_dictGet_dictSet]
      simp only [List.map_cons, List.mem_cons]
      tauto

/-- A non-capability key of the new record ends up bound to its new
value: new data wins. -/
theorem mergeModel_newKey : ∀ {l : List (String × Val)}, keysNodup l →
    ∀ {e e2 : List (String × Val)}, mergeModel (.map e) l = .ok (.map e2) →
    ∀ {k : String} {v : Val}, (k, v) ∈ l → k ≠ "capabilities" →
    dictGet e2 k = some v
  | [], _, e, e2, _, k, v, hm, _ => by cases hm
  | (k', v') :: rest, hn, e, e2, h, k, v, hm, hcap => by
    rw [keysNodup, List.map_cons, List.nodup_cons] at hn
    rw [mergeModel_cons] at h
    rcases List.mem_cons.mp hm with heq | hmem
    · obtain ⟨rfl, rfl⟩ := Prod.mk.injEq .. ▸ heq
      rw [if_neg hcap] at h
      have hout : k ∉ rest.map Prod.fst := hn.1
      rw [mergeModel_frame h hout, dictGet_dictSet_self]
    · have hk' : k ≠ k' := by
        rintro rfl
        exact hn.1 (List.mem_map.mpr ⟨(k, v), hmem, rfl⟩)
      by_cases hc : k' = "capabilities"
      · rw [if_pos hc] at h
        cases hm2 : mergeCaps ((dictGet e "capabilities").getD (.list [])) v' with
        | ok merged =>
          rw [hm2] at h
          exact mergeModel_newKey hn.2 h hmem hcap
        | error err => rw [hm2] at h; cases h
      · rw [if_neg hc] at h
        exact mergeModel_newKey hn.2 h hmem hcap

/-- When the new record carries a `capabilities` entry, the merged
record's `capabilities` value is the sorted, deduplicated union of the
existing list (empty when absent) and the new list. -/
theorem mergeModel_caps : ∀ {l : List (String × Val)}, keysNodup l →
    ∀ {e e2 : List (String × Val)} {cv : Val},
    mergeModel (.map e) l = .ok (.map e2) →
    dictGet l "capabilities" = some cv →
    ∃ cs ns, asStrList ((dictGet e "capabilities").getD (.list [])) = some cs ∧
      asStrList cv = some ns ∧
      dictGet e2 "capabilities" =
        some (.list ((setSorted (cs ++ ns)).map .str))
  | [], _, e, e2, cv, _, hget => by cases hget
  | (k', v') :: rest, hn, e, e2, cv, h, hget => by
    rw [keysNodup, List.map_cons, List.nodup_cons] at hn
    rw [mergeModel_cons] at h
    simp only [dictGet] at hget
    by_cases hc : k' = "capabilities"
    · rw [if_pos hc] at h
      rw [if_pos hc] at hget
      obtain rfl : v' = cv := Option.some.inj hget
      cases hm : mergeCaps ((dictGet e "capabilities").getD (.list [])) v' with
      | ok merged =>
        rw [hm] at h
        obtain ⟨cs, ns, hcs, hns, rfl⟩ := mergeCaps_ok hm
        refine ⟨cs, ns, hcs, hns, ?_⟩
        have hout : "capabilities" ∉ rest.map Prod.fst := hc ▸ hn.1
        rw [mergeModel_frame h hout, dictGet_dictSet_self]
      | error err => rw [hm] at h; cases h
    · rw [if_neg hc] at h
      rw [if_neg hc] at hget
      obtain ⟨cs, ns, hcs, hns, hres⟩ := mergeModel_caps hn.2 h hget
      rw [dictGet_dictSet_ne _ _ (fun hh => hc hh.symm)] at hcs
      exact ⟨cs, ns, hcs, hns, hres⟩

/-- If every entry of the record is already absorbed by the existing
record, merging it is the identity. -/
theorem mergeModel_fixed : ∀ {l : List (String × Val)}
    {e : List (String × Val)},
    (∀ k v, (k, v) ∈ l →
      (k ≠ "capabilities" → dictGet e k = some v) ∧
      (k = "capabilities" → ∃ u ns,
        dictGet e "capabilities" = some (.list (u.map .str)) ∧
        asStrList v = some ns ∧ setSorted (u ++ ns) = u)) →
    mergeModel (.map e) l = .ok (.map e)
  | [], e, _ => rfl
  | (k', v') :: rest, e, habs => by
    rw [mergeModel_cons]
    have hh := habs k' v' (List.mem_cons_self _ _)
    by_cases hc : k' = "capabilities"
    · rw [if_pos hc]
      obtain ⟨u, ns, hu, hns, habsorb⟩ := hh.2 hc
      have hmc : mergeCaps ((dictGet e "capabilities").getD (.list [])) v' =
          .ok (.list (u.map .str)) := by
        rw [hu, Option.getD_some, asStrList_eq_some hns, mergeCaps_strs, habsorb]
      rw [hmc]
      show mergeModel (.map (dictSet e "capabilities" (.list (u.map .str)))) rest =
        .ok (.map e)
      rw [dictSet_of_dictGet_eq hu]
      exact mergeModel_fixed (fun k v hm => habs k v (List.mem_cons_of_mem _ hm))
    · rw [if_neg hc]
      rw [dictSet_of_dictGet_eq (hh.1 hc)]
      exact mergeModel_fixed (fun k v hm => habs k v (List.mem_cons_of_mem _ hm))

/-! ### Lemmas about the batch fold (`mergeModels`) -/

theorem mergeModels_nil (ms : List (String × Val)) : mergeModels ms [] = .ok ms :=
  rfl

theorem mergeModels_cons_eq (ms : List (String × Val)) (m : String) (nd : Val)
    (rest : List (String × Val)) :
    mergeModels ms ((m, nd) :: rest) =
      match stepRecord ms m nd with
      | .ok ms1 => mergeModels ms1 rest
      | .error e => .error e := by
  cases hg : dictGet ms m with
  | some em =>
    cases nd with
    | map kvs =>
      cases hme : mergeModel em kvs with
      | ok merged => simp only [mergeModels, stepRecord, hg, hme]
      | error e => simp only [mergeModels, stepRecord, hg, hme]
    | null => simp only [mergeModels, stepRecord, hg]
    | str s => simp only [mergeModels, stepRecord, hg]
    | int n => simp only [mergeModels, stepRecord, hg]
    | list xs => simp only [mergeModels, stepRecord, hg]
  | none => simp only [mergeModels, stepRecord, hg]

theorem mergeModels_cons_ok {ms : List (String × Val)} {m : String} {nd : Val}
    {rest ms' : List (String × Val)}
    (h : mergeModels ms ((m, nd) :: rest) = .ok ms') :
    ∃ ms1, stepRecord ms m nd = .ok ms1 ∧ mergeModels ms1 rest = .ok ms' := by
  rw [mergeModels_cons_eq] at h
  cases hs : stepRecord ms m nd with
  | ok ms1 =>
    rw [hs] at h
    exact ⟨ms1, rfl, h⟩
  | error e => rw [hs] at h; cases h

/-- Case analysis on one successful loop iteration. -/
theorem stepRecord_ok {ms : List (String × Val)} {m : String} {nd : Val}
    {ms1 : List (String × Val)} (h : stepRecord ms m nd = .ok ms1) :
    (∃ em kvs merged, dictGet ms m = some em ∧ nd = .map kvs ∧
      mergeModel em kvs = .ok merged ∧ ms1 = dictSet ms m merged) ∨
    (dictGet ms m = none ∧ ms1 = dictSet ms m nd) := by
  unfold stepRecord at h
  split at h
  · rename_i em hg
    split at h
    · rename_i kvs
      split at h
      · rename_i merged hm
        exact Or.inl ⟨em, kvs, merged, hg, rfl, hm, (Except.ok.inj h).symm⟩
      · cases h
    · cases h
  · rename_i hg
    exact Or.inr ⟨hg, (Except.ok.inj h).symm⟩

/-- Models absent from the batch are untouched. -/
theorem mergeModels_frame : ∀ {R ms ms' : List (String × Val)},
    mergeModels ms R = .ok ms' → ∀ {m : String}, m ∉ R.map Prod.fst →
    dictGet ms' m = dictGet ms m
  | [], ms, ms', h, m, _ => by cases Except.ok.inj h; rfl
  | (m0, nd0) :: rest, ms, ms', h, m, hm => by
    have hm1 : m ≠ m0 := fun hh => hm (by simp [hh])
    have hm2 : m ∉ rest.map Prod.fst := fun hh => hm (by simp [hh])
    obtain ⟨ms1, hstep, hrest⟩ := mergeModels_cons_ok h
    rcases stepRecord_ok hstep with ⟨em, kvs, merged, _, _, _, rfl⟩ | ⟨_, rfl⟩ <;>
      rw [mergeModels_frame hrest hm2, dictGet_dictSet_ne _ _ hm1]

/-- The merged models map has exactly the union of the old keys and the
batch keys. -/
theorem mergeModels_hasKey : ∀ {R ms ms' : List (String × Val)},
    mergeModels ms R = .ok ms' → ∀ m : String,
    (dictGet ms' m).isSome ↔ (dictGet ms m).isSome ∨ m ∈ R.map Prod.fst
  | [], ms, ms', h, m => by cases Except.ok.inj h; simp
  | (m0, nd0) :: rest, ms, ms', h, m => by
    obtain ⟨ms1, hstep, hrest⟩ := mergeModels_cons_ok h
    have hrec := mergeModels_hasKey hrest m
    simp only [List.map_cons, List.mem_cons]
    rcases stepRecord_ok hstep with ⟨em, kvs, merged, _, _, _, rfl⟩ | ⟨_, rfl⟩ <;>
      rw [hrec, isSome_dictGet_dictSet] <;> tauto

/-- What a successful batch merge does at an entry `(m, nd)` of the
batch: either `m` was present and its record was merged, or it was
absent and the record was inserted verbatim. -/
theorem mergeModels_process : ∀ {R : List (String × Val)}, keysNodup R →
    ∀ {ms ms' : List (String × Val)} {m : String} {nd : Val},
    (m, nd) ∈ R → mergeModels ms R = .ok ms' →
    (∃ em kvs em', nd = .map kvs ∧ dictGet ms m = some em ∧
      mergeModel em kvs = .ok em' ∧ dictGet ms' m = some em') ∨
    (dictGet ms m = none ∧ dictGet ms' m = some nd)
  | [], _, ms, ms', m, nd, hmem, _ => by cases hmem
  | (m0, nd0) :: rest, hn, ms, ms', m, nd, hmem, h => by
    rw [keysNodup, List.map_cons, List.nodup_cons] at hn
    obtain ⟨ms1, hstep, hrest⟩ := mergeModels_cons_ok h
    rcases List.mem_cons.mp hmem with heq | hmem2
    · obtain ⟨rfl, rfl⟩ := Prod.mk.injEq .. ▸ heq
      have hout : m ∉ rest.map Prod.fst := hn.1
      have hfr := mergeModels_frame hrest hout
      rcases stepRecord_ok hstep with ⟨em, kvs, merged, hg, rfl, hmm, rfl⟩ | ⟨hg, rfl⟩
      · exact Or.inl ⟨em, kvs, merged, rfl, hg, hmm,
          by rw [hfr, dictGet_dictSet_self]⟩
      · exact Or.inr ⟨hg, by rw [hfr, dictGet_dictSet_self]⟩
    · have hm0 : m ≠ m0 := by
        rintro rfl
        exact hn.1 (List.mem_map.mpr ⟨(m, nd), hmem2, rfl⟩)
      have hrec := mergeModels_process hn.2 hmem2 hrest
      rcases stepRecord_ok hstep with ⟨em, kvs, merged, _, _, _, rfl⟩ | ⟨_, rfl⟩ <;>
        rw [dictGet_dictSet_ne _ _ hm0] at hrec <;> exact hrec

/-- A batch entry whose record is not a mapping makes the whole merge
fail whenever its model is already known. -/
theorem mergeModels_error_of_bad : ∀ {R ms : List (String × Val)} {m : String}
    {nd : Val}, (m, nd) ∈ R → isMapVal nd = false → (dictGet ms m).isSome →
    ∃ e, mergeModels ms R = .error e
  | [], ms, m, nd, hmem, _, _ => by cases hmem
  | (m0, nd0) :: rest, ms, m, nd, hmem, hbad, hsome => by
    rw [mergeModels_cons_eq]
    rcases List.mem_cons.mp hmem with heq | hmem2
    · obtain ⟨rfl, rfl⟩ := Prod.mk.injEq .. ▸ heq
      obtain ⟨em, hg⟩ := Option.isSome_iff_exists.mp hsome
      unfold stepRecord
      rw [hg]
      cases nd with
      | map kvs => cases hbad
      | null => exact ⟨_, rfl⟩
      | str s => exact ⟨_, rfl⟩
      | int n => exact ⟨_, rfl⟩
      | list xs => exact ⟨_, rfl⟩
    · cases hs : stepRecord ms m0 nd0 with
      | ok ms1 =>
        have hsome1 : (dictGet ms1 m).isSome := by
          rcases stepRecord_ok hs with ⟨em, kvs, merged, _, _, _, rfl⟩ | ⟨_, rfl⟩ <;>
            rw [isSome_dictGet_dictSet] <;> exact Or.inr hsome
        obtain ⟨e, he⟩ := mergeModels_error_of_bad hmem2 hbad hsome1
        exact ⟨e, by show mergeModels ms1 rest = Except.error e; exact he⟩
      | error e => exact ⟨e, rfl⟩

/-- If every batch entry is already absorbed by the models map, the
batch merge is the identity. -/
theorem mergeModels_fixed : ∀ {R ms : List (String × Val)},
    (∀ m nd, (m, nd) ∈ R → ∃ kvs em, nd = .map kvs ∧
      dictGet ms m = some em ∧ mergeModel em kvs = .ok em) →
    mergeModels ms R = .ok ms
  | [], ms, _ => rfl
  | (m0, nd0) :: rest, ms, habs => by
    obtain ⟨kvs, em, rfl, hg, hmm⟩ := habs m0 nd0 (List.mem_cons_self _ _)
    rw [mergeModels_cons_eq]
    have hstep : stepRecord ms m0 (.map kvs) = .ok ms := by
      unfold stepRecord
      simp only [hg, hmm]
      rw [dictSet_of_dictGet_eq hg]
    rw [hstep]
    exact mergeModels_fixed (fun m nd hm => habs m nd (List.mem_cons_of_mem _ hm))

/-! ### Structure of `merge_configs` and `reconcile` -/

theorem merge_configs_ok_of_models {D ms : List (String × Val)}
    (hms : dictGet D "models" = some (.map ms)) {R ms2 : List (String × Val)}
    (hmm : mergeModels ms R = .ok ms2) :
    merge_configs D R = .ok (dictSet D "models" (.map ms2)) := by
  unfold merge_configs
  simp only [hms, Option.getD_some, hmm]

theorem merge_configs_error_of_models {D ms : List (String × Val)}
    (hms : dictGet D "models" = some (.map ms)) {R : List (String × Val)}
    {e : String} (hmm : mergeModels ms R = .error e) :
    merge_configs D R = .error e := by
  unfold merge_configs
  simp only [hms, Option.getD_some, hmm]

theorem merge_configs_ok_elim {D ms R res : List (String × Val)}
    (hms : dictGet D "models" = some (.map ms))
    (h : merge_configs D R = .ok res) :
    ∃ ms2, mergeModels ms R = .ok ms2 ∧ res = dictSet D "models" (.map ms2) := by
  unfold merge_configs at h
  simp only [hms, Option.getD_some] at h
  cases hmm : mergeModels ms R with
  | ok ms2 =>
    simp only [hmm] at h
    exact ⟨ms2, rfl, (Except.ok.inj h).symm⟩
  | error e => simp only [hmm] at h; cases h

theorem merge_configs_ok_of_no_models {D : List (String × Val)}
    (hms : dictGet D "models" = none) {R ms2 : List (String × Val)}
    (hmm : mergeModels [] R = .ok ms2) :
    merge_configs D R = .ok (dictSet D "models" (.map ms2)) := by
  unfold merge_configs
  simp only [hms, Option.getD_none, hmm]

/-- Every successful merge only rebinds the `models` key of the
existing document. -/
theorem merge_configs_ok_shape {D R res : List (String × Val)}
    (h : merge_configs D R = .ok res) :
    ∃ v, res = dictSet D "models" v := by
  unfold merge_configs at h
  split at h
  · split at h
    · exact ⟨_, (Except.ok.inj h).symm⟩
    · cases h
  · split at h
    · exact ⟨_, (Except.ok.inj h).symm⟩
    · cases h

theorem merge_configs_frame {D R res : List (String × Val)}
    (h : merge_configs D R = .ok res) {k : String} (hk : k ≠ "models") :
    dictGet res k = dictGet D k := by
  obtain ⟨v, rfl⟩ := merge_configs_ok_shape h
  exact dictGet_dictSet_ne _ _ hk

theorem merge_configs_has_models {D R res : List (String × Val)}
    (h : merge_configs D R = .ok res) : (dictGet res "models").isSome := by
  obtain ⟨v, rfl⟩ := merge_configs_ok_shape h
  rw [dictGet_dictSet_self]
  rfl

theorem reconcile_ok_intro {D R U : List (String × Val)} (p : String)
    (hc : merge_configs D R = .ok U) :
    reconcile D R p = .ok (if (dictGet U "provider").isSome then U
      else dictSet U "provider" (.str p)) := by
  unfold reconcile update_provider_config
  simp only [hc]

theorem reconcile_error {D R : List (String × Val)} (p : String) {e : String}
    (hc : merge_configs D R = .error e) : reconcile D R p = .error e := by
  unfold reconcile update_provider_config
  simp only [hc]

theorem reconcile_ok_elim {D R res : List (String × Val)} {p : String}
    (h : reconcile D R p = .ok res) :
    ∃ U, merge_configs D R = .ok U ∧
      res = (if (dictGet U "provider").isSome then U
        else dictSet U "provider" (.str p)) := by
  unfold reconcile update_provider_config at h
  cases hc : merge_configs D R with
  | ok U =>
    simp only [hc] at h
    exact ⟨U, rfl, (Except.ok.inj h).symm⟩
  | error e => simp only [hc] at h; cases h

/-- The result's `provider` is the existing one when present, the
canonical argument otherwise. -/
theorem reconcile_provider {D R res : List (String × Val)} {p : String}
    (h : reconcile D R p = .ok res) :
    dictGet res "provider" = some ((dictGet D "provider").getD (.str p)) := by
  obtain ⟨U, hU, rfl⟩ := reconcile_ok_elim h
  have hprov : dictGet U "provider" = dictGet D "provider" :=
    merge_configs_frame hU (by decide)
  by_cases hs : (dictGet U "provider").isSome
  · rw [if_pos hs]
    obtain ⟨v, hv⟩ := Option.isSome_iff_exists.mp hs
    rw [hv]
    rw [hv] at hprov
    rw [← hprov.symm] at hv
    rw [← hprov]
    simp
  · rw [if_neg hs, dictGet_dictSet_self]
    rw [hprov] at hs
    rw [Option.not_isSome_iff_eq_none] at hs
    rw [hs]
    rfl

/-- Fields other than `models` and `provider` are untouched by a
successful reconciliation. -/
theorem reconcile_frame {D R res : List (String × Val)} {p : String}
    (h : reconcile D R p = .ok res) {k : String}
    (h1 : k ≠ "models") (h2 : k ≠ "provider") :
    dictGet res k = dictGet D k := by
  obtain ⟨U, hU, rfl⟩ := reconcile_ok_elim h
  by_cases hs : (dictGet U "provider").isSome
  · rw [if_pos hs]
    exact merge_configs_frame hU h1
  · rw [if_neg hs, dictGet_dictSet_ne _ _ h2]
    exact merge_configs_frame hU h1

/-- The models map of a successful reconciliation is the batch merge of
the existing models map. -/
theorem reconcile_models {D ms R res : List (String × Val)} {p : String}
    (hms : dictGet D "models" = some (.map ms))
    (h : reconcile D R p = .ok res) :
    ∃ ms2, mergeModels ms R = .ok ms2 ∧
      dictGet res "models" = some (.map ms2) := by
  obtain ⟨U, hU, rfl⟩ := reconcile_ok_elim h
  obtain ⟨ms2, hmm, rfl⟩ := merge_configs_ok_elim hms hU
  refine ⟨ms2, hmm, ?_⟩
  by_cases hs : (dictGet (dictSet D "models" (.map ms2)) "provider").isSome
  · rw [if_pos hs, dictGet_dictSet_self]
  · rw [if_neg hs, dictGet_dictSet_ne _ _ (by decide : "models" ≠ "provider"),
      dictGet_dictSet_self]

/-! ### Absorption: a second merge of the same record is the identity -/

/-- Records whose capability list is already in canonical (sorted,
duplicate-free) form are absorbed: re-merging them changes nothing. -/
theorem mergeModel_absorb {kvs : List (String × Val)} (hkvs : keysNodup kvs)
    (hcaps : ∀ c, dictGet kvs "capabilities" = some c →
      ∃ ns, c = Val.list (ns.map Val.str) ∧ List.Sorted (· < ·) ns)
    {em em' : Val} (hmerge : mergeModel em kvs = .ok em') :
    mergeModel em' kvs = .ok em' := by
  cases em with
  | map e0 =>
    obtain ⟨e1, rfl⟩ := mergeModel_map_ok hmerge
    apply mergeModel_fixed
    intro k v hkv
    constructor
    · intro hne
      exact mergeModel_newKey hkvs hmerge hkv hne
    · rintro rfl
      have hget : dictGet kvs "capabilities" = some v :=
        dictGet_of_mem_nodup hkvs hkv
      obtain ⟨ns, hveq, hsorted⟩ := hcaps v hget
      subst hveq
      obtain ⟨cs0, ns0, hcs0, hns0, hcapsres⟩ := mergeModel_caps hkvs hmerge hget
      have hns0eq : ns0 = ns := by
        rw [asStrList_map_str] at hns0
        exact (Option.some.inj hns0).symm
      rw [hns0eq] at hcapsres
      refine ⟨setSorted (cs0 ++ ns), ns, hcapsres, asStrList_map_str ns, ?_⟩
      exact setSorted_absorb (sorted_setSorted _)
        (fun a ha => (mem_setSorted _ _).mpr (List.mem_append.mpr (Or.inr ha)))
  | null =>
    cases kvs with
    | nil =>
      cases Except.ok.inj hmerge
      rfl
    | cons hd tl => cases hmerge
  | str s =>
    cases kvs with
    | nil =>
      cases Except.ok.inj hmerge
      rfl
    | cons hd tl => cases hmerge
  | int n =>
    cases kvs with
    | nil =>
      cases Except.ok.inj hmerge
      rfl
    | cons hd tl => cases hmerge
  | list xs =>
    cases kvs with
    | nil =>
      cases Except.ok.inj hmerge
      rfl
    | cons hd tl => cases hmerge

/-- Merging a canonical record into itself is the identity. -/
theorem mergeModel_self {kvs : List (String × Val)} (hkvs : keysNodup kvs)
    (hcaps : ∀ c, dictGet kvs "capabilities" = some c →
      ∃ ns, c = Val.list (ns.map Val.str) ∧ List.Sorted (· < ·) ns) :
    mergeModel (.map kvs) kvs = .ok (.map kvs) := by
  apply mergeModel_fixed
  intro k v hkv
  refine ⟨fun _ => dictGet_of_mem_nodup hkvs hkv, ?_⟩
  rintro rfl
  have hget : dictGet kvs "capabilities" = some v :=
    dictGet_of_mem_nodup hkvs hkv
  obtain ⟨ns, hveq, hsorted⟩ := hcaps v hget
  subst hveq
  exact ⟨ns, ns, hget, asStrList_map_str ns,
    setSorted_absorb hsorted (fun a ha => ha)⟩

/-! ### Full case analysis of `merge_configs` -/

theorem merge_configs_ok_cases {D R res : List (String × Val)}
    (h : merge_configs D R = .ok res) :
    (∃ ms ms2, (dictGet D "models").getD (.map []) = .map ms ∧
      mergeModels ms R = .ok ms2 ∧ res = dictSet D "models" (.map ms2)) ∨
    (∃ v, (dictGet D "models").getD (.map []) = v ∧ isMapVal v = false ∧
      R = [] ∧ res = dictSet D "models" v) := by
  unfold merge_configs at h
  split at h
  · rename_i ms hsc
    split at h
    · rename_i ms2 hmm
      exact Or.inl ⟨ms, ms2, hsc, hmm, (Except.ok.inj h).symm⟩
    · cases h
  · rename_i hnm
    split at h
    · refine Or.inr ⟨(dictGet D "models").getD (.map []), rfl, ?_, rfl,
        (Except.ok.inj h).symm⟩
      cases hv : (dictGet D "models").getD (.map []) with
      | map ms => exact absurd hv (hnm ms)
      | null => rfl
      | str s => rfl
      | int n => rfl
      | list xs => rfl
    · cases h

/-- With a non-mapping `models` entry, an empty batch leaves the
document unchanged (the loop body never runs). -/
theorem merge_configs_nonmap_nil {D : List (String × Val)} {v : Val}
    (hms : dictGet D "models" = some v) (hnm : isMapVal v = false) :
    merge_configs D [] = .ok (dictSet D "models" v) := by
  unfold merge_configs
  simp only [hms, Option.getD_some]
  cases v with
  | map ms => cases hnm
  | null => rfl
  | str s => rfl
  | int n => rfl
  | list xs => rfl

/-- The provider-normalisation step touches only the `provider` key. -/
theorem dictGet_provstep (U : List (String × Val)) (p : String) {k : String}
    (hk : k ≠ "provider") :
    dictGet (if (dictGet U "provider").isSome then U
      else dictSet U "provider" (.str p)) k = dictGet U k := by
  by_cases hs : (dictGet U "provider").isSome
  · rw [if_pos hs]
  · rw [if_neg hs, dictGet_dictSet_ne _ _ hk]

/-! ### Claim theorems -/

/-- C10: `merge_configs` touches only the `models` entry of the existing
document: every other top-level field (for example `default_model` and
`metadata`) is present and unchanged in the result, the result always
carries a `models` key, and when the existing document lacks one a
`models` key bound to an empty map is added. -/
theorem C10_merge_configs_touches_only_models
    (D R res : List (String × Val)) (h : merge_configs D R = .ok res) :
    (∀ k, k ≠ "models" → dictGet res k = dictGet D k) ∧
    (dictGet res "models").isSome ∧
    (dictGet D "models" = none →
      merge_configs D [] = .ok (D ++ [("models", Val.map [])])) := by
  refine ⟨fun k hk => merge_configs_frame h hk, merge_configs_has_models h,
    fun hnone => ?_⟩
  have hmc := merge_configs_ok_of_no_models hnone (mergeModels_nil [])
  rwa [dictSet_of_dictGet_none _ hnone] at hmc

/-- Witness for C10 at a concrete input: a document with `provider` and
`default_model` fields and no `models` key, merged with an empty batch. -/
theorem C10_witness :
    merge_configs [("provider", Val.str "openai"), ("default_model", Val.str "m")]
      [] = .ok [("provider", Val.str "openai"), ("default_model", Val.str "m"),
        ("models", Val.map [])] ∧
    ((∀ k, k ≠ "models" →
      dictGet [("provider", Val.str "openai"), ("default_model", Val.str "m"),
        ("models", Val.map [])] k =
      dictGet [("provider", Val.str "openai"), ("default_model", Val.str "m")] k) ∧
    (dictGet [("provider", Val.str "openai"), ("default_model", Val.str "m"),
      ("models", Val.map [])] "models").isSome ∧
    (dictGet [("provider", Val.str "openai"), ("default_model", Val.str "m")]
        "models" = none →
      merge_configs [("provider", Val.str "openai"), ("default_model", Val.str "m")]
        [] = .ok ([("provider", Val.str "openai"), ("default_model", Val.str "m")]
          ++ [("models", Val.map [])]))) :=
  ⟨rfl, C10_merge_configs_touches_only_models _ [] _ rfl⟩

/-- C8: reconciling any document that carries a models map with an empty
batch of new records leaves the models map exactly equal to the existing
one, and every field other than `provider` is unchanged. -/
theorem C8_empty_batch_non_destructive
    (D : List (String × Val)) (p : String) (ms : List (String × Val))
    (hms : dictGet D "models" = some (.map ms)) :
    ∃ res, reconcile D [] p = .ok res ∧
      dictGet res "models" = some (.map ms) ∧
      ∀ k, k ≠ "provider" → dictGet res k = dictGet D k := by
  have hmc : merge_configs D [] = .ok D := by
    have hstep := merge_configs_ok_of_models hms (mergeModels_nil ms)
    rwa [dictSet_of_dictGet_eq hms] at hstep
  refine ⟨_, reconcile_ok_intro p hmc, ?_, ?_⟩
  · rw [dictGet_provstep D p (by decide), hms]
  · intro k hk
    rw [dictGet_provstep D p hk]

/-- Witness for C8 at a concrete input. -/
theorem C8_witness :
    dictGet [("models", Val.map [("a", Val.int 1)]), ("extra", Val.str "keep")]
      "models" = some (Val.map [("a", Val.int 1)]) ∧
    (∃ res, reconcile [("models", Val.map [("a", Val.int 1)]),
        ("extra", Val.str "keep")] [] "openai" = .ok res ∧
      dictGet res "models" = some (Val.map [("a", Val.int 1)]) ∧
      ∀ k, k ≠ "provider" → dictGet res k =
        dictGet [("models", Val.map [("a", Val.int 1)]),
          ("extra", Val.str "keep")] k) :=
  ⟨rfl, C8_empty_batch_non_destructive _ "openai" _ rfl⟩

/-- C6 counterexample: a stale `provider` value in the existing document
is NOT overridden by the canonical provider passed to the call — the
code sets `provider` only when the key is absent. -/
theorem C6_counterexample :
    reconcile [("provider", Val.str "stale")] [] "openai" =
      .ok [("provider", Val.str "stale"), ("models", Val.map [])] ∧
    dictGet [("provider", Val.str "stale"), ("models", Val.map [])] "provider" ≠
      some (Val.str "openai") := by
  refine ⟨rfl, fun h => ?_⟩
  exact absurd (Val.str.inj (Option.some.inj h)) (by decide)

/-- C6 (amended): the result's `provider` field equals the canonical
provider only when the existing document lacks a `provider` field; an
existing (possibly stale) value is retained. -/
theorem C6_provider_set_only_when_absent
    (D R res : List (String × Val)) (p : String)
    (h : reconcile D R p = .ok res) :
    dictGet res "provider" = some ((dictGet D "provider").getD (.str p)) :=
  reconcile_provider h

/-- Witness for the amended C6 at a concrete input (stale provider). -/
theorem C6_witness :
    reconcile [("provider", Val.str "stale")] [] "groq" =
      .ok [("provider", Val.str "stale"), ("models", Val.map [])] ∧
    dictGet [("provider", Val.str "stale"), ("models", Val.map [])] "provider" =
      some ((dictGet [("provider", Val.str "stale")] "provider").getD
        (Val.str "groq")) :=
  ⟨rfl, C6_provider_set_only_when_absent _ [] _ "groq" rfl⟩

/-- C7 counterexample: a `default_model` that no longer references any
key of the merged models map is kept, not unset — the code never reads
or writes `default_model`. -/
theorem C7_counterexample :
    reconcile [("default_model", Val.str "x")] [] "p" =
      .ok [("default_model", Val.str "x"), ("models", Val.map []),
        ("provider", Val.str "p")] ∧
    dictGet [("default_model", Val.str "x"), ("models", Val.map []),
      ("provider", Val.str "p")] "models" = some (Val.map []) ∧
    dictGet ([] : List (String × Val)) "x" = none ∧
    dictGet [("default_model", Val.str "x"), ("models", Val.map []),
      ("provider", Val.str "p")] "default_model" = some (Val.str "x") :=
  ⟨rfl, rfl, rfl, rfl⟩

/-- C7 (amended): reconciliation never modifies `default_model`: the
result's value (or absence) is exactly the existing document's, whether
or not it references a key of the merged models map. -/
theorem C7_default_model_never_modified
    (D R res : List (String × Val)) (p : String)
    (h : reconcile D R p = .ok res) :
    dictGet res "default_model" = dictGet D "default_model" :=
  reconcile_frame h (by decide) (by decide)

/-- Witness for the amended C7 at a concrete input (dangling default). -/
theorem C7_witness :
    reconcile [("default_model", Val.str "x")] [] "q" =
      .ok [("default_model", Val.str "x"), ("models", Val.map []),
        ("provider", Val.str "q")] ∧
    dictGet [("default_model", Val.str "x"), ("models", Val.map []),
      ("provider", Val.str "q")] "default_model" =
      dictGet [("default_model", Val.str "x")] "default_model" :=
  ⟨rfl, C7_default_model_never_modified _ [] _ "q" rfl⟩

/-- C4: a model present in the existing models map but absent from the
new records survives reconciliation with its attribute record unchanged;
reconciliation never deletes a previously known model. -/
theorem C4_no_silent_deletion
    (D ms R res : List (String × Val)) (p m : String) (em : Val)
    (hms : dictGet D "models" = some (.map ms))
    (h : reconcile D R p = .ok res)
    (hm : dictGet ms m = some em) (hout : m ∉ R.map Prod.fst) :
    ∃ ms2, dictGet res "models" = some (.map ms2) ∧
      dictGet ms2 m = some em := by
  obtain ⟨ms2, hmm, hres⟩ := reconcile_models hms h
  exact ⟨ms2, hres, by rw [mergeModels_frame hmm hout, hm]⟩

/-- Witness for C4: existing models `a` and `b`, batch mentioning only
`a`; `b` is retained unchanged. -/
theorem C4_witness :
    dictGet [("models", Val.map [("a", Val.map []),
      ("b", Val.map [("context_window", Val.int 4)])])] "models" =
      some (Val.map [("a", Val.map []),
        ("b", Val.map [("context_window", Val.int 4)])]) ∧
    reconcile [("models", Val.map [("a", Val.map []),
      ("b", Val.map [("context_window", Val.int 4)])])]
      [("a", Val.map [])] "p" =
      .ok [("models", Val.map [("a", Val.map []),
        ("b", Val.map [("context_window", Val.int 4)])]),
        ("provider", Val.str "p")] ∧
    dictGet [("a", Val.map []),
      ("b", Val.map [("context_window", Val.int 4)])] "b" =
      some (Val.map [("context_window", Val.int 4)]) ∧
    "b" ∉ ([("a", Val.map [])] : List (String × Val)).map Prod.fst ∧
    (∃ ms2, dictGet [("models", Val.map [("a", Val.map []),
        ("b", Val.map [("context_window", Val.int 4)])]),
        ("provider", Val.str "p")] "models" = some (Val.map ms2) ∧
      dictGet ms2 "b" = some (Val.map [("context_window", Val.int 4)])) :=
  ⟨rfl, rfl, rfl, by decide,
    C4_no_silent_deletion
      [("models", Val.map [("a", Val.map []),
        ("b", Val.map [("context_window", Val.int 4)])])]
      [("a", Val.map []), ("b", Val.map [("context_window", Val.int 4)])]
      [("a", Val.map [])]
      [("models", Val.map [("a", Val.map []),
        ("b", Val.map [("context_window", Val.int 4)])]),
        ("provider", Val.str "p")]
      "p" "b" (Val.map [("context_window", Val.int 4)])
      rfl rfl rfl (by decide)⟩

/-- C3: for a model present in both the existing document and the new
records, every attribute key that occurs only in the existing record
(absent from the new record) keeps its existing value in the merged
record. -/
theorem C3_manual_fields_preserved
    (D ms R res nd em : List (String × Val)) (p m k : String) (v : Val)
    (hms : dictGet D "models" = some (.map ms))
    (hR : keysNodup R) (hmem : (m, Val.map nd) ∈ R)
    (hem : dictGet ms m = some (.map em))
    (h : reconcile D R p = .ok res)
    (hk : dictGet em k = some v) (hout : k ∉ nd.map Prod.fst) :
    ∃ ms2 em2, dictGet res "models" = some (.map ms2) ∧
      dictGet ms2 m = some (.map em2) ∧ dictGet em2 k = some v := by
  obtain ⟨ms2, hmm, hres⟩ := reconcile_models hms h
  rcases mergeModels_process hR hmem hmm with
    ⟨em0, kvs, em', hnd, hg, hmerge, hget⟩ | ⟨hnone, _⟩
  · obtain rfl : nd = kvs := Val.map.inj hnd
    rw [hem] at hg
    obtain rfl : em0 = Val.map em := (Option.some.inj hg).symm
    obtain ⟨em2, rfl⟩ := mergeModel_map_ok hmerge
    refine ⟨ms2, em2, hres, hget, ?_⟩
    rw [mergeModel_frame hmerge hout, hk]
  · rw [hnone] at hem
    cases hem

/-- Witness for C3: pricing in the existing record survives a new record
carrying only `context_window`, and the merged record holds both. -/
theorem C3_witness :
    dictGet [("models", Val.map [("m", Val.map [("pricing",
        Val.map [("input", Val.int 1), ("output", Val.int 2)])])])] "models" =
      some (Val.map [("m", Val.map [("pricing",
        Val.map [("input", Val.int 1), ("output", Val.int 2)])])]) ∧
    keysNodup [("m", Val.map [("context_window", Val.int 8192)])] ∧
    ("m", Val.map [("context_window", Val.int 8192)]) ∈
      [("m", Val.map [("context_window", Val.int 8192)])] ∧
    reconcile [("models", Val.map [("m", Val.map [("pricing",
        Val.map [("input", Val.int 1), ("output", Val.int 2)])])])]
      [("m", Val.map [("context_window", Val.int 8192)])] "p" =
      .ok [("models", Val.map [("m", Val.map [("pricing",
        Val.map [("input", Val.int 1), ("output", Val.int 2)]),
        ("context_window", Val.int 8192)])]), ("provider", Val.str "p")] ∧
    (∃ ms2 em2, dictGet [("models", Val.map [("m", Val.map [("pricing",
        Val.map [("input", Val.int 1), ("output", Val.int 2)]),
        ("context_window", Val.int 8192)])]), ("provider", Val.str "p")]
        "models" = some (Val.map ms2) ∧
      dictGet ms2 "m" = some (Val.map em2) ∧
      dictGet em2 "pricing" =
        some (Val.map [("input", Val.int 1), ("output", Val.int 2)])) :=
  ⟨rfl, by decide, List.mem_cons_self _ _, rfl,
    C3_manual_fields_preserved
      [("models", Val.map [("m", Val.map [("pricing",
        Val.map [("input", Val.int 1), ("output", Val.int 2)])])])]
      [("m", Val.map [("pricing",
        Val.map [("input", Val.int 1), ("output", Val.int 2)])])]
      [("m", Val.map [("context_window", Val.int 8192)])]
      [("models", Val.map [("m", Val.map [("pricing",
        Val.map [("input", Val.int 1), ("output", Val.int 2)]),
        ("context_window", Val.int 8192)])]), ("provider", Val.str "p")]
      [("context_window", Val.int 8192)]
      [("pricing", Val.map [("input", Val.int 1), ("output", Val.int 2)])]
      "p" "m" "pricing"
      (Val.map [("input", Val.int 1), ("output", Val.int 2)])
      rfl (by decide) (List.mem_cons_self _ _) rfl rfl rfl (by decide)⟩

/-- C9: after a successful merge the key set of the resulting models map
is exactly the union of the existing keys and the batch keys (no other
identifier ever appears), and every attribute key of a new record
appears as a key of the corresponding merged record. -/
theorem C9_key_union
    (D ms R res : List (String × Val)) (p : String)
    (hms : dictGet D "models" = some (.map ms)) (hR : keysNodup R)
    (h : reconcile D R p = .ok res) :
    ∃ ms2, dictGet res "models" = some (.map ms2) ∧
      (∀ m, (dictGet ms2 m).isSome ↔
        (dictGet ms m).isSome ∨ m ∈ R.map Prod.fst) ∧
      (∀ m nd, (m, Val.map nd) ∈ R → ∀ k, k ∈ nd.map Prod.fst →
        ∃ em2, dictGet ms2 m = some (.map em2) ∧ (dictGet em2 k).isSome) := by
  obtain ⟨ms2, hmm, hres⟩ := reconcile_models hms h
  refine ⟨ms2, hres, mergeModels_hasKey hmm, ?_⟩
  intro m nd hmem k hk
  rcases mergeModels_process hR hmem hmm with
    ⟨em0, kvs, em', hnd, hg, hmerge, hget⟩ | ⟨hnone, hget⟩
  · obtain rfl : nd = kvs := Val.map.inj hnd
    cases em0 with
    | map e0 =>
      obtain ⟨em2, rfl⟩ := mergeModel_map_ok hmerge
      refine ⟨em2, hget, ?_⟩
      rw [mergeModel_hasKey hmerge k]
      exact Or.inr hk
    | null =>
      cases nd with
      | nil => cases hk
      | cons hd tl => cases hmerge
    | str s =>
      cases nd with
      | nil => cases hk
      | cons hd tl => cases hmerge
    | int n =>
      cases nd with
      | nil => cases hk
      | cons hd tl => cases hmerge
    | list xs =>
      cases nd with
      | nil => cases hk
      | cons hd tl => cases hmerge
  · refine ⟨nd, hget, ?_⟩
    rw [dictGet_isSome_iff_mem]
    exact hk

/-- Witness for C9: one known model updated, one new model added. -/
theorem C9_witness :
    dictGet [("models", Val.map [("a", Val.map [("x", Val.int 1)])])] "models" =
      some (Val.map [("a", Val.map [("x", Val.int 1)])]) ∧
    keysNodup [("a", Val.map [("y", Val.int 2)]), ("b", Val.map [("z", Val.int 3)])] ∧
    reconcile [("models", Val.map [("a", Val.map [("x", Val.int 1)])])]
      [("a", Val.map [("y", Val.int 2)]), ("b", Val.map [("z", Val.int 3)])] "p" =
      .ok [("models", Val.map [("a", Val.map [("x", Val.int 1), ("y", Val.int 2)]),
        ("b", Val.map [("z", Val.int 3)])]), ("provider", Val.str "p")] ∧
    (∃ ms2, dictGet [("models", Val.map [("a", Val.map [("x", Val.int 1),
        ("y", Val.int 2)]), ("b", Val.map [("z", Val.int 3)])]),
        ("provider", Val.str "p")] "models" = some (Val.map ms2) ∧
      (∀ m, (dictGet ms2 m).isSome ↔
        (dictGet [("a", Val.map [("x", Val.int 1)])] m).isSome ∨
        m ∈ ([("a", Val.map [("y", Val.int 2)]),
          ("b", Val.map [("z", Val.int 3)])] :
            List (String × Val)).map Prod.fst) ∧
      (∀ m nd, (m, Val.map nd) ∈ ([("a", Val.map [("y", Val.int 2)]),
          ("b", Val.map [("z", Val.int 3)])] : List (String × Val)) →
        ∀ k, k ∈ nd.map Prod.fst →
        ∃ em2, dictGet ms2 m = some (Val.map em2) ∧ (dictGet em2 k).isSome)) :=
  ⟨rfl, by decide, rfl,
    C9_key_union [("models", Val.map [("a", Val.map [("x", Val.int 1)])])]
      [("a", Val.map [("x", Val.int 1)])]
      [("a", Val.map [("y", Val.int 2)]), ("b", Val.map [("z", Val.int 3)])]
      [("models", Val.map [("a", Val.map [("x", Val.int 1), ("y", Val.int 2)]),
        ("b", Val.map [("z", Val.int 3)])]), ("provider", Val.str "p")]
      "p" rfl (by decide) rfl⟩

/-- C1: for a model present in both sides whose records both carry a
capability list, the merged `capabilities` value is the strictly sorted,
duplicate-free union of the existing and new capability lists. -/
theorem C1_capabilities_union
    (D ms R res nd em : List (String × Val)) (p m : String)
    (cs ns : List String)
    (hms : dictGet D "models" = some (.map ms))
    (hR : keysNodup R) (hnd : keysNodup nd)
    (hmem : (m, Val.map nd) ∈ R)
    (hem : dictGet ms m = some (.map em))
    (hcs : dictGet em "capabilities" = some (.list (cs.map .str)))
    (hns : dictGet nd "capabilities" = some (.list (ns.map .str)))
    (h : reconcile D R p = .ok res) :
    ∃ ms2 em2 u, dictGet res "models" = some (.map ms2) ∧
      dictGet ms2 m = some (.map em2) ∧
      dictGet em2 "capabilities" = some (.list (u.map .str)) ∧
      List.Sorted (· < ·) u ∧ u.Nodup ∧
      (∀ a, a ∈ u ↔ a ∈ cs ∨ a ∈ ns) := by
  obtain ⟨ms2, hmm, hres⟩ := reconcile_models hms h
  rcases mergeModels_process hR hmem hmm with
    ⟨em0, kvs, em', hndeq, hg, hmerge, hget⟩ | ⟨hnone, _⟩
  · obtain rfl : nd = kvs := Val.map.inj hndeq
    rw [hem] at hg
    obtain rfl : em0 = Val.map em := (Option.some.inj hg).symm
    obtain ⟨em2, rfl⟩ := mergeModel_map_ok hmerge
    obtain ⟨cs0, ns0, hcs0, hns0, hcaps⟩ := mergeModel_caps hnd hmerge hns
    rw [hcs, Option.getD_some, asStrList_map_str] at hcs0
    rw [asStrList_map_str] at hns0
    have hcseq : cs0 = cs := (Option.some.inj hcs0).symm
    have hnseq : ns0 = ns := (Option.some.inj hns0).symm
    rw [hcseq, hnseq] at hcaps
    refine ⟨ms2, em2, setSorted (cs ++ ns), hres, hget, hcaps,
      sorted_setSorted _, (sorted_setSorted _).nodup, fun a => ?_⟩
    rw [mem_setSorted, List.mem_append]
  · rw [hnone] at hem
    cases hem

/-- Witness for C1: the spec's own example — existing
`[streaming, vision]` merged with new `[vision, function_calling]`
yields `[function_calling, streaming, vision]`. -/
theorem C1_witness :
    reconcile [("models", Val.map [("m", Val.map [("capabilities",
        Val.list [Val.str "streaming", Val.str "vision"])])])]
      [("m", Val.map [("capabilities",
        Val.list [Val.str "vision", Val.str "function_calling"])])] "p" =
      .ok [("models", Val.map [("m", Val.map [("capabilities",
        Val.list [Val.str "function_calling", Val.str "streaming",
          Val.str "vision"])])]), ("provider", Val.str "p")] ∧
    (∃ ms2 em2 u,
      dictGet [("models", Val.map [("m", Val.map [("capabilities",
        Val.list [Val.str "function_calling", Val.str "streaming",
          Val.str "vision"])])]), ("provider", Val.str "p")] "models" =
        some (Val.map ms2) ∧
      dictGet ms2 "m" = some (Val.map em2) ∧
      dictGet em2 "capabilities" = some (Val.list (u.map Val.str)) ∧
      List.Sorted (· < ·) u ∧ u.Nodup ∧
      (∀ a, a ∈ u ↔ a ∈ ["streaming", "vision"] ∨
        a ∈ ["vision", "function_calling"])) :=
  ⟨rfl,
    C1_capabilities_union
      [("models", Val.map [("m", Val.map [("capabilities",
        Val.list [Val.str "streaming", Val.str "vision"])])])]
      [("m", Val.map [("capabilities",
        Val.list [Val.str "streaming", Val.str "vision"])])]
      [("m", Val.map [("capabilities",
        Val.list [Val.str "vision", Val.str "function_calling"])])]
      [("models", Val.map [("m", Val.map [("capabilities",
        Val.list [Val.str "function_calling", Val.str "streaming",
          Val.str "vision"])])]), ("provider", Val.str "p")]
      [("capabilities", Val.list [Val.str "vision", Val.str "function_calling"])]
      [("capabilities", Val.list [Val.str "streaming", Val.str "vision"])]
      "p" "m" ["streaming", "vision"] ["vision", "function_calling"]
      rfl (by decide) (by decide) (List.mem_cons_self _ _) rfl rfl rfl rfl⟩

/-- C5 counterexample: a non-mapping entry (`"m" ↦ 0`) for a model
already present aborts the whole reconciliation with an error; the
remaining well-formed entry `"n"` is not merged.  Nothing is skipped
with a diagnostic. -/
theorem C5_counterexample :
    reconcile [("models", Val.map [("m", Val.map [])])]
      [("m", Val.int 0), ("n", Val.map [("context_window", Val.int 8)])] "p" =
      .error "new record is not a mapping" := rfl

/-- C5 (amended): a non-mapping batch entry is not skipped — when its
model identifier already exists in the document the whole reconciliation
fails with an error, and when the identifier is new the entry is
inserted into the models map verbatim. -/
theorem C5_bad_record_not_skipped :
    (∀ (D ms R : List (String × Val)) (p m : String) (nd : Val),
      dictGet D "models" = some (.map ms) → (m, nd) ∈ R →
      isMapVal nd = false → (dictGet ms m).isSome →
      ∃ e, reconcile D R p = .error e) ∧
    (∀ (D ms R res : List (String × Val)) (p m : String) (nd : Val),
      dictGet D "models" = some (.map ms) → keysNodup R → (m, nd) ∈ R →
      dictGet ms m = none → reconcile D R p = .ok res →
      ∃ ms2, dictGet res "models" = some (.map ms2) ∧
        dictGet ms2 m = some nd) := by
  constructor
  · intro D ms R p m nd hms hmem hbad hsome
    obtain ⟨e, he⟩ := mergeModels_error_of_bad hmem hbad hsome
    exact ⟨e, reconcile_error p (merge_configs_error_of_models hms he)⟩
  · intro D ms R res p m nd hms hR hmem hnone h
    obtain ⟨ms2, hmm, hres⟩ := reconcile_models hms h
    rcases mergeModels_process hR hmem hmm with
      ⟨em0, kvs, em', hnd, hg, _, _⟩ | ⟨_, hget⟩
    · rw [hnone] at hg
      cases hg
    · exact ⟨ms2, hres, hget⟩

/-- Witness for the amended C5: the abort case and the verbatim-insert
case, both at concrete inputs. -/
theorem C5_witness :
    (∃ e, reconcile [("models", Val.map [("m", Val.map [])])]
      [("m", Val.int 0), ("n", Val.map [("context_window", Val.int 8)])] "p" =
        .error e) ∧
    (∃ ms2, dictGet [("models", Val.map [("n", Val.null)]),
        ("provider", Val.str "p")] "models" = some (Val.map ms2) ∧
      dictGet ms2 "n" = some Val.null) :=
  ⟨C5_bad_record_not_skipped.1 [("models", Val.map [("m", Val.map [])])]
      [("m", Val.map [])]
      [("m", Val.int 0), ("n", Val.map [("context_window", Val.int 8)])]
      "p" "m" (Val.int 0) rfl (List.mem_cons_self _ _) rfl rfl,
    C5_bad_record_not_skipped.2 [("models", Val.map [])] []
      [("n", Val.null)]
      [("models", Val.map [("n", Val.null)]), ("provider", Val.str "p")]
      "p" "n" Val.null rfl (by decide) (List.mem_cons_self _ _) rfl rfl⟩

/-- C2 counterexample: reconciliation is not idempotent.  A new model
whose capability list arrives unsorted (`[b, a]`) is stored verbatim by
the first reconcile and sorted/deduplicated (`[a, b]`) by the second, so
`reconcile(reconcile(D,R,p),R,p) ≠ reconcile(D,R,p)`. -/
theorem C2_counterexample :
    ((reconcile [] [("m", Val.map [("capabilities",
        Val.list [Val.str "b", Val.str "a"])])] "p").bind
      (fun d => reconcile d [("m", Val.map [("capabilities",
        Val.list [Val.str "b", Val.str "a"])])] "p")) ≠
    reconcile [] [("m", Val.map [("capabilities",
        Val.list [Val.str "b", Val.str "a"])])] "p" :=
  fun h => absurd (congrArg (fun r => capsOfResult r "m") h) (by decide)

/-- C2 (amended): reconciliation is idempotent for batches in canonical
form — every record a mapping with pairwise-distinct keys whose
`capabilities` value, when present, is a strictly sorted (hence
duplicate-free) list of capability strings.  (The counterexample shows
the sortedness proviso cannot be dropped.) -/
theorem C2_idempotent_for_canonical_batches
    (D R : List (String × Val)) (p : String)
    (hR : keysNodup R)
    (hrec : ∀ m nd, (m, nd) ∈ R → ∃ kvs, nd = Val.map kvs ∧ keysNodup kvs ∧
      ∀ c, dictGet kvs "capabilities" = some c →
        ∃ ns, c = Val.list (ns.map Val.str) ∧ List.Sorted (· < ·) ns) :
    ((reconcile D R p).bind (fun d => reconcile d R p)) = reconcile D R p := by
  cases hout : reconcile D R p with
  | error e => rfl
  | ok D1 =>
    show reconcile D1 R p = .ok D1
    obtain ⟨U, hU, hD1⟩ := reconcile_ok_elim hout
    have hprov : (dictGet D1 "provider").isSome = true := by
      rw [reconcile_provider hout]
      rfl
    rcases merge_configs_ok_cases hU with
      ⟨ms, ms2, hms0, hmm, rfl⟩ | ⟨v, hv, hnm, rfl, rfl⟩
    · have hD1models : dictGet D1 "models" = some (.map ms2) := by
        rw [hD1, dictGet_provstep _ _ (by decide), dictGet_dictSet_self]
      have habs : ∀ m nd, (m, nd) ∈ R → ∃ kvs em, nd = Val.map kvs ∧
          dictGet ms2 m = some em ∧ mergeModel em kvs = .ok em := by
        intro m nd hmem
        obtain ⟨kvs, rfl, hkvs, hcapsWF⟩ := hrec m nd hmem
        rcases mergeModels_process hR hmem hmm with
          ⟨em0, kvs', em', hnd, hg, hmerge, hget⟩ | ⟨hnone, hget⟩
        · obtain rfl : kvs = kvs' := Val.map.inj hnd
          exact ⟨kvs, em', rfl, hget, mergeModel_absorb hkvs hcapsWF hmerge⟩
        · exact ⟨kvs, Val.map kvs, rfl, hget, mergeModel_self hkvs hcapsWF⟩
      have hmm2 : mergeModels ms2 R = .ok ms2 := mergeModels_fixed habs
      have hmc2 : merge_configs D1 R = .ok D1 := by
        have hstep := merge_configs_ok_of_models hD1models hmm2
        rwa [dictSet_of_dictGet_eq hD1models] at hstep
      rw [reconcile_ok_intro p hmc2, if_pos hprov]
    · have hD1models : dictGet D1 "models" = some v := by
        rw [hD1, dictGet_provstep _ _ (by decide), dictGet_dictSet_self]
      have hmc2 : merge_configs D1 [] = .ok D1 := by
        have hstep := merge_configs_nonmap_nil hD1models hnm
        rwa [dictSet_of_dictGet_eq hD1models] at hstep
      rw [reconcile_ok_intro p hmc2, if_pos hprov]

/-- Witness for the amended C2: a canonical batch (sorted capability
list `[a, b]`) reconciled twice gives the same document as once. -/
theorem C2_witness :
    keysNodup [("m", Val.map [("capabilities",
      Val.list [Val.str "a", Val.str "b"]), ("context_window", Val.int 4)])] ∧
    (∀ m nd, (m, nd) ∈ ([("m", Val.map [("capabilities",
        Val.list [Val.str "a", Val.str "b"]),
        ("context_window", Val.int 4)])] : List (String × Val)) →
      ∃ kvs, nd = Val.map kvs ∧ keysNodup kvs ∧
      ∀ c, dictGet kvs "capabilities" = some c →
        ∃ ns, c = Val.list (ns.map Val.str) ∧ List.Sorted (· < ·) ns) ∧
    ((reconcile [("provider", Val.str "x")] [("m", Val.map [("capabilities",
        Val.list [Val.str "a", Val.str "b"]),
        ("context_window", Val.int 4)])] "p").bind
      (fun d => reconcile d [("m", Val.map [("capabilities",
        Val.list [Val.str "a", Val.str "b"]),
        ("context_window", Val.int 4)])] "p")) =
    reconcile [("provider", Val.str "x")] [("m", Val.map [("capabilities",
        Val.list [Val.str "a", Val.str "b"]),
        ("context_window", Val.int 4)])] "p" := by
  have hrec : ∀ m nd, (m, nd) ∈ ([("m", Val.map [("capabilities",
      Val.list [Val.str "a", Val.str "b"]),
      ("context_window", Val.int 4)])] : List (String × Val)) →
      ∃ kvs, nd = Val.map kvs ∧ keysNodup kvs ∧
      ∀ c, dictGet kvs "capabilities" = some c →
        ∃ ns, c = Val.list (ns.map Val.str) ∧ List.Sorted (· < ·) ns := by
    intro m nd hmem
    obtain ⟨rfl, rfl⟩ := Prod.mk.injEq .. ▸ List.mem_singleton.mp hmem
    refine ⟨[("capabilities", Val.list [Val.str "a", Val.str "b"]),
      ("context_window", Val.int 4)], rfl, by decide, ?_⟩
    intro c hc
    obtain rfl : c = Val.list [Val.str "a", Val.str "b"] :=
      (Option.some.inj hc).symm
    refine ⟨["a", "b"], rfl, ?_⟩
    rw [List.sorted_cons]
    refine ⟨?_, List.sorted_singleton "b"⟩
    intro b hb
    obtain rfl : b = "b" := List.mem_singleton.mp hb
    exact (strLt_iff "a" "b").mp rfl
  exact ⟨by decide, hrec,
    C2_idempotent_for_canonical_batches [("provider", Val.str "x")]
      [("m", Val.map [("capabilities", Val.list [Val.str "a", Val.str "b"]),
        ("context_window", Val.int 4)])] "p" (by decide) hrec⟩

end SyncModels
